import Mathlib

/-!
Shallow embedding of the proto-break schema comparison engine
(`src/main.go` of github.com/valentine-shevchenko/proto-break).

Descriptor trees are modelled by plain inductive data; Go maps are
modelled by their insertion sequence, with lookup returning the most
recently inserted value for a key.  The Go runtime iterates a map in an
unspecified order, so every comparator that ranges over a map is given
an explicit iteration order, and theorems quantify over all orders that
are permutations of the map's entries.
-/

namespace ProtoBreak

/-- Wire-level field kinds, mirroring `protoreflect.Kind`. -/
inductive Kind where
  | bool | int32 | sint32 | uint32 | int64 | sint64 | uint64
  | sfixed32 | fixed32 | float | sfixed64 | fixed64 | double
  | string | bytes | enum | group | message
deriving DecidableEq

/-- Field cardinality, mirroring `protoreflect.Cardinality`
(`Optional`, `Required`, `Repeated`). -/
inductive Cardinality where
  | optional | required | repeated
deriving DecidableEq

/-- A field descriptor: `Name()`, `Number()`, `Kind()`, `Cardinality()`. -/
structure Field where
  name : String
  number : Nat
  kind : Kind
  cardinality : Cardinality
deriving DecidableEq

/-- An enum value descriptor: `Name()` and `Number()`. -/
structure EnumValue where
  name : String
  number : Int
deriving DecidableEq

/-- An enum descriptor: `Name()` and `Values()`. -/
structure EnumDescriptor where
  name : String
  values : List EnumValue
deriving DecidableEq

/-- A method descriptor: `Name()`, `Input().FullName()`,
`Output().FullName()`, `IsStreamingClient()`, `IsStreamingServer()`. -/
structure Method where
  name : String
  inputType : String
  outputType : String
  clientStreaming : Bool
  serverStreaming : Bool
deriving DecidableEq

/-- A service descriptor: `Name()` and `Methods()`. -/
structure Service where
  name : String
  methods : List Method
deriving DecidableEq

/-- A message descriptor: `Name()`, `Fields()`, `Enums()`, `Messages()`
(nested declarations). -/
inductive MessageDescriptor where
  | mk (name : String) (fields : List Field) (enums : List EnumDescriptor)
      (messages : List MessageDescriptor)

/-- The `Name()` accessor of a message descriptor. -/
def MessageDescriptor.name : MessageDescriptor → String
  | .mk n _ _ _ => n

/-- The `Fields()` accessor of a message descriptor. -/
def MessageDescriptor.fields : MessageDescriptor → List Field
  | .mk _ f _ _ => f

/-- The `Enums()` accessor of a message descriptor. -/
def MessageDescriptor.enums : MessageDescriptor → List EnumDescriptor
  | .mk _ _ e _ => e

/-- The `Messages()` accessor of a message descriptor. -/
def MessageDescriptor.messages : MessageDescriptor → List MessageDescriptor
  | .mk _ _ _ m => m

/-- A file descriptor: `Path()`, `Package()`, and its top-level
declarations.  The comparison engine never reads `path` or `pkg`. -/
structure FileDescriptor where
  path : String
  pkg : String
  messages : List MessageDescriptor
  enums : List EnumDescriptor
  services : List Service

/-! ## Go maps

A Go map is modelled by the sequence of insertions performed on it. -/

/-- Lookup in a Go map built by the insertions `l`: the most recently
inserted value for `k` wins. -/
def goLookup {κ α : Type} [DecidableEq κ] (l : List (κ × α)) (k : κ) : Option α :=
  (l.reverse.find? (fun p => decide (p.1 = k))).map Prod.snd

/-- The distinct keys of a Go map built by the insertions `l`. -/
def goKeys {κ α : Type} [DecidableEq κ] (l : List (κ × α)) : List κ :=
  (l.map Prod.fst).dedup

/-- The key-value pairs held by a Go map after the insertions `l`, in one
canonical order.  A run of the Go runtime may range over them in any
order, so theorems about map iteration quantify over all permutations of
this list. -/
def goEntries {κ α : Type} [DecidableEq κ] (l : List (κ × α)) : List (κ × α) :=
  (goKeys l).filterMap (fun k => (goLookup l k).map (fun v => (k, v)))

/-! ## Findings

The Go code renders each finding directly as a string via `fmt.Sprintf`.
Each constructor below corresponds to exactly one `fmt.Sprintf` call site
in `src/main.go`, carrying the same data in the same order; `render`
reproduces the format strings. -/

/-- One breaking-change finding, one constructor per `fmt.Sprintf` call
site in `src/main.go`. -/
inductive Finding where
  | fieldRemoved (fieldName : String) (number : Nat) (msgName : String)
  | fieldRenamed (fromName toName msgName : String)
  | fieldTypeChanged (fieldName : String) (fromKind toKind : Kind) (msgName : String)
  | fieldCardinalityChanged (fieldName msgName : String)
  | enumRemoved (enumName : String)
  | enumValueRemoved (valueName : String) (number : Int) (enumName : String)
  | enumValueRenamed (fromName toName enumName : String)
  | serviceRemoved (serviceName : String)
  | methodRemoved (methodName serviceName : String)
  | methodInputChanged (methodName fromType toType serviceName : String)
  | methodOutputChanged (methodName fromType toType serviceName : String)
  | methodClientStreamingChanged (methodName : String) (fromS toS : Bool) (serviceName : String)
  | methodServerStreamingChanged (methodName : String) (fromS toS : Bool) (serviceName : String)
  | messageRemoved (msgName : String)
deriving DecidableEq

/-- Go `%q` on an identifier (identifiers contain no characters that
`%q` would escape). -/
def goQuote (s : String) : String := "\"" ++ s ++ "\""

/-- Rendering of a `Kind`, as `protoreflect.Kind.String()` prints it. -/
def Kind.render : Kind → String
  | .bool => "bool" | .int32 => "int32" | .sint32 => "sint32"
  | .uint32 => "uint32" | .int64 => "int64" | .sint64 => "sint64"
  | .uint64 => "uint64" | .sfixed32 => "sfixed32" | .fixed32 => "fixed32"
  | .float => "float" | .sfixed64 => "sfixed64" | .fixed64 => "fixed64"
  | .double => "double" | .string => "string" | .bytes => "bytes"
  | .enum => "enum" | .group => "group" | .message => "message"

/-- Go `%v` on a bool. -/
def boolRender (b : Bool) : String := if b then "true" else "false"

/-- The exact string each finding is rendered to by the `fmt.Sprintf`
call sites of `src/main.go`. -/
def Finding.render : Finding → String
  | .fieldRemoved f n m =>
      "Field " ++ goQuote f ++ " (number " ++ toString n ++ ") was removed from message " ++ goQuote m
  | .fieldRenamed a b m =>
      "Field renamed from " ++ goQuote a ++ " to " ++ goQuote b ++ " in message " ++ goQuote m
  | .fieldTypeChanged f a b m =>
      "Field " ++ goQuote f ++ " type changed from " ++ a.render ++ " to " ++ b.render ++ " in message " ++ goQuote m
  | .fieldCardinalityChanged f m =>
      "Field " ++ goQuote f ++ " cardinality changed from repeated to singular in message " ++ goQuote m
  | .enumRemoved e => "Enum " ++ goQuote e ++ " was removed"
  | .enumValueRemoved v n e =>
      "Enum value " ++ goQuote v ++ " (number " ++ toString n ++ ") was removed from enum " ++ goQuote e
  | .enumValueRenamed a b e =>
      "Enum value renamed from " ++ goQuote a ++ " to " ++ goQuote b ++ " in enum " ++ goQuote e
  | .serviceRemoved s => "Service " ++ goQuote s ++ " was removed"
  | .methodRemoved m s => "Method " ++ goQuote m ++ " was removed from service " ++ goQuote s
  | .methodInputChanged m a b s =>
      "Method " ++ goQuote m ++ " input type changed from " ++ a ++ " to " ++ b ++ " in service " ++ goQuote s
  | .methodOutputChanged m a b s =>
      "Method " ++ goQuote m ++ " output type changed from " ++ a ++ " to " ++ b ++ " in service " ++ goQuote s
  | .methodClientStreamingChanged m a b s =>
      "Method " ++ goQuote m ++ " client streaming changed from " ++ boolRender a ++ " to " ++ boolRender b ++ " in service " ++ goQuote s
  | .methodServerStreamingChanged m a b s =>
      "Method " ++ goQuote m ++ " server streaming changed from " ++ boolRender a ++ " to " ++ boolRender b ++ " in service " ++ goQuote s
  | .messageRemoved m => "Message " ++ goQuote m ++ " was removed"

/-! ## Field comparison (`compareFields`, src/main.go lines 44-98) -/

/-- Findings appended by the body of the per-previous-field loop of
`compareFields` (src/main.go lines 58-95): removal is detected by number
lookup; on a match the rename, kind and cardinality checks run
independently, in this order, with no early return. -/
def fieldFindings (msgName : String) (currFieldsByNumber : List (Nat × Field))
    (prevField : Field) : List Finding :=
  match goLookup currFieldsByNumber prevField.number with
  | none => [Finding.fieldRemoved prevField.name prevField.number msgName]
  | some currField =>
    (if prevField.name ≠ currField.name then
        [Finding.fieldRenamed prevField.name currField.name msgName] else [])
    ++ (if prevField.kind ≠ currField.kind then
        [Finding.fieldTypeChanged prevField.name prevField.kind currField.kind msgName] else [])
    ++ (if prevField.cardinality ≠ currField.cardinality then
          (if prevField.cardinality = Cardinality.repeated ∧
              currField.cardinality ≠ Cardinality.repeated then
            [Finding.fieldCardinalityChanged prevField.name msgName] else [])
        else [])

/-- The `currFieldsByNumber` map of `compareFields` (src/main.go lines
51-55), as its insertion sequence. -/
def fieldsByNumber (currMsg : MessageDescriptor) : List (Nat × Field) :=
  currMsg.fields.map (fun f => (f.number, f))

/-- `compareFields` (src/main.go lines 44-98): iterate the previous
message's fields in declaration order, appending `fieldFindings` for
each. -/
def compareFields (prevMsg currMsg : MessageDescriptor) : List Finding :=
  prevMsg.fields.flatMap (fieldFindings prevMsg.name (fieldsByNumber currMsg))

/-! ## Namespace flattening (`collectNestedEnums` lines 101-117,
`collectNestedMessages` lines 120-129) -/

mutual

/-- Insertions performed by `collectNestedMessages` (src/main.go lines
120-129): each message is keyed by `prefix + name`, then its nested
messages are visited with prefix `prefix + name + "."`. -/
def collectNestedMessages : List MessageDescriptor → String → List (String × MessageDescriptor)
  | [], _ => []
  | m :: rest, pre => collectNestedMessagesOne m pre ++ collectNestedMessages rest pre

/-- The insertions `collectNestedMessages` performs for one message of
its input sequence. -/
def collectNestedMessagesOne : MessageDescriptor → String → List (String × MessageDescriptor)
  | .mk n fs es ms, pre =>
      (pre ++ n, .mk n fs es ms) :: collectNestedMessages ms (pre ++ n ++ ".")

end

mutual

/-- Insertions performed by `collectNestedEnums` (src/main.go lines
101-117): for each message, its local enums are keyed
`prefix + msgName + "." + enumName`, then nested messages are visited
with the extended prefix.  The messages themselves are not inserted. -/
def collectNestedEnums : List MessageDescriptor → String → List (String × EnumDescriptor)
  | [], _ => []
  | m :: rest, pre => collectNestedEnumsOne m pre ++ collectNestedEnums rest pre

/-- The insertions `collectNestedEnums` performs for one message of its
input sequence. -/
def collectNestedEnumsOne : MessageDescriptor → String → List (String × EnumDescriptor)
  | .mk n _ es ms, pre =>
      es.map (fun e => (pre ++ n ++ "." ++ e.name, e))
        ++ collectNestedEnums ms (pre ++ n ++ ".")

end

/-- All insertions into `prevMsgsByName` and `currMsgsByName` of
`compareMessages` (src/main.go lines 301-317): first the top-level
messages keyed by bare name, then `collectNestedMessages` with prefix
`""` (which re-inserts the top-level messages under the same keys). -/
def msgInsertions (f : FileDescriptor) : List (String × MessageDescriptor) :=
  f.messages.map (fun m => (m.name, m)) ++ collectNestedMessages f.messages ""

/-- All insertions into `prevEnumsByName` and `currEnumsByName` of
`compareEnums` (src/main.go lines 139-155): top-level enums keyed by
bare name, then `collectNestedEnums` with prefix `""`. -/
def enumInsertions (f : FileDescriptor) : List (String × EnumDescriptor) :=
  f.enums.map (fun e => (e.name, e)) ++ collectNestedEnums f.messages ""

/-! ## Enum comparison (`compareEnums`, src/main.go lines 131-203) -/

/-- Findings appended by the body of the per-previous-enum-value loop of
`compareEnums` (src/main.go lines 179-199). -/
def enumValueFindings (enumName : String) (currValuesByNumber : List (Int × EnumValue))
    (prevValue : EnumValue) : List Finding :=
  match goLookup currValuesByNumber prevValue.number with
  | none => [Finding.enumValueRemoved prevValue.name prevValue.number enumName]
  | some currValue =>
    if prevValue.name ≠ currValue.name then
      [Finding.enumValueRenamed prevValue.name currValue.name enumName] else []

/-- Findings appended for one entry of the ranged-over previous enum map
(src/main.go lines 158-200): removal by qualified name, otherwise the
value-by-value comparison with current values keyed by number. -/
def enumEntryFindings (currEnumsByName : List (String × EnumDescriptor))
    (e : String × EnumDescriptor) : List Finding :=
  match goLookup currEnumsByName e.1 with
  | none => [Finding.enumRemoved e.1]
  | some currEnum =>
    e.2.values.flatMap
      (enumValueFindings e.1 (currEnum.values.map (fun v => (v.number, v))))

/-- `compareEnums` with an explicit iteration order for the Go-map range
`for enumName, prevEnum := range prevEnumsByName` (src/main.go line
158). -/
def compareEnumsWith (order : List (String × EnumDescriptor))
    (currFile : FileDescriptor) : List Finding :=
  order.flatMap (enumEntryFindings (enumInsertions currFile))

/-- `compareEnums` (src/main.go lines 131-203) under the canonical
iteration order. -/
def compareEnums (prevFile currFile : FileDescriptor) : List Finding :=
  compareEnumsWith (goEntries (enumInsertions prevFile)) currFile

/-! ## Service comparison (`compareServices`, src/main.go lines 205-291) -/

/-- Findings for one matched method pair (src/main.go lines 257-286):
the four checks (input type, output type, client streaming, server
streaming) run independently, in this order, with no early return. -/
def methodFindings (serviceName : String) (prevMethod currMethod : Method) : List Finding :=
  (if prevMethod.inputType ≠ currMethod.inputType then
      [Finding.methodInputChanged prevMethod.name prevMethod.inputType
        currMethod.inputType serviceName] else [])
  ++ (if prevMethod.outputType ≠ currMethod.outputType then
      [Finding.methodOutputChanged prevMethod.name prevMethod.outputType
        currMethod.outputType serviceName] else [])
  ++ (if prevMethod.clientStreaming ≠ currMethod.clientStreaming then
      [Finding.methodClientStreamingChanged prevMethod.name prevMethod.clientStreaming
        currMethod.clientStreaming serviceName] else [])
  ++ (if prevMethod.serverStreaming ≠ currMethod.serverStreaming then
      [Finding.methodServerStreamingChanged prevMethod.name prevMethod.serverStreaming
        currMethod.serverStreaming serviceName] else [])

/-- Findings appended by the body of the per-previous-method loop
(src/main.go lines 245-287): removal by name lookup, otherwise
`methodFindings`. -/
def methodEntryFindings (serviceName : String) (currMethodsByName : List (String × Method))
    (prevMethod : Method) : List Finding :=
  match goLookup currMethodsByName prevMethod.name with
  | none => [Finding.methodRemoved prevMethod.name serviceName]
  | some currMethod => methodFindings serviceName prevMethod currMethod

/-- Findings appended by the body of the per-previous-service loop
(src/main.go lines 221-288). -/
def serviceFindings (currServicesByName : List (String × Service))
    (prevService : Service) : List Finding :=
  match goLookup currServicesByName prevService.name with
  | none => [Finding.serviceRemoved prevService.name]
  | some currService =>
    prevService.methods.flatMap
      (methodEntryFindings prevService.name (currService.methods.map (fun m => (m.name, m))))

/-- `compareServices` (src/main.go lines 205-291): both loops iterate
slices in declaration order, so no map-range order parameter is
needed. -/
def compareServices (prevFile currFile : FileDescriptor) : List Finding :=
  prevFile.services.flatMap
    (serviceFindings (currFile.services.map (fun s => (s.name, s))))

/-! ## Message comparison (`compareMessages`, src/main.go lines 293-335) -/

/-- Findings appended for one entry of the ranged-over previous message
map (src/main.go lines 320-332): removal by qualified name, otherwise
`compareFields`. -/
def msgEntryFindings (currMsgsByName : List (String × MessageDescriptor))
    (e : String × MessageDescriptor) : List Finding :=
  match goLookup currMsgsByName e.1 with
  | none => [Finding.messageRemoved e.1]
  | some currMsg => compareFields e.2 currMsg

/-- `compareMessages` with an explicit iteration order for the Go-map
range `for msgName, prevMsg := range prevMsgsByName` (src/main.go line
320). -/
def compareMessagesWith (order : List (String × MessageDescriptor))
    (currFile : FileDescriptor) : List Finding :=
  order.flatMap (msgEntryFindings (msgInsertions currFile))

/-- `compareMessages` (src/main.go lines 293-335) under the canonical
iteration order. -/
def compareMessages (prevFile currFile : FileDescriptor) : List Finding :=
  compareMessagesWith (goEntries (msgInsertions prevFile)) currFile

/-! ## Per-file orchestration (`compareProtoFile`, src/main.go lines
397-435) -/

/-- The findings of one successfully-parsed file pair, with explicit
map-iteration orders: messages, then enums, then services (src/main.go
lines 419-432). -/
def compareProtoFileWith (msgOrder : List (String × MessageDescriptor))
    (enumOrder : List (String × EnumDescriptor))
    (prevFile currFile : FileDescriptor) : List Finding :=
  compareMessagesWith msgOrder currFile
    ++ compareEnumsWith enumOrder currFile
    ++ compareServices prevFile currFile

/-- The findings of one successfully-parsed file pair under the
canonical iteration orders. -/
def compareProtoFileFindings (prevFile currFile : FileDescriptor) : List Finding :=
  compareMessages prevFile currFile
    ++ compareEnums prevFile currFile
    ++ compareServices prevFile currFile

/-- `compareProtoFile` (src/main.go lines 397-435): retrieving or
parsing either version can fail, in which case no findings are
produced.  The external retrieval and parsing steps are abstracted into
the `Except`-valued input pair. -/
def compareProtoFile (pair : Except String (FileDescriptor × FileDescriptor)) :
    Except String (List Finding) :=
  pair.map (fun pc => compareProtoFileFindings pc.1 pc.2)

/-! ## The orchestrating run (`getModifiedProtoFiles` lines 337-368 and
`main` lines 437-502) -/

/-- Go `filepath.Ext`: scan backwards from the end of the path until a
path separator; the suffix from the last dot of the final element, or
`""`. -/
def filepathExtAux : List Char → List Char → String
  | [], _ => ""
  | c :: rest, acc =>
    if c = '/' then "" else if c = '.' then String.mk ('.' :: acc)
    else filepathExtAux rest (c :: acc)

/-- Go `filepath.Ext`. -/
def filepathExt (s : String) : String := filepathExtAux s.data.reverse []

/-- Go `strings.TrimSpace`: strip leading and trailing whitespace. -/
def trimSpace (s : String) : String :=
  String.mk ((s.data.dropWhile Char.isWhitespace).reverse.dropWhile Char.isWhitespace).reverse

/-- `getModifiedProtoFiles` (src/main.go lines 337-368): split the
`git diff --name-only` output into lines, skip blank lines, keep
`.proto` files, and keep only files for which `os.Stat` succeeds (a file
deleted from the working tree is skipped).  `statOk` abstracts
`os.Stat`. -/
def getModifiedProtoFiles (diffLines : List String) (statOk : String → Bool) : List String :=
  diffLines.filter (fun file =>
    !(trimSpace file == "") && (filepathExt file == ".proto") && statOk file)

/-- The findings aggregated over a list of file-pair comparison results,
as `main` sees them (src/main.go lines 478-496): a pair whose comparison
failed contributes none. -/
def runAggregatedFindings (results : List (Except String (List Finding))) : List Finding :=
  results.flatMap (fun r => match r with
    | .error _ => []
    | .ok findings => findings)

/-- The `hasBreakingChanges` flag computed by the loop of `main`
(src/main.go lines 478-496): errors leave it untouched and the loop
continues with the next file. -/
def hasBreakingChanges (results : List (Except String (List Finding))) : Bool :=
  results.foldl (fun acc r => match r with
    | .error _ => acc
    | .ok findings => if findings.isEmpty then acc else true) false

/-- The whole run on the modified-file list: compare each file the diff
reports that still exists, aggregating findings; `pairOf` abstracts
retrieving and parsing the two versions of one file. -/
def runFindings (diffLines : List String) (statOk : String → Bool)
    (pairOf : String → Except String (FileDescriptor × FileDescriptor)) : List Finding :=
  runAggregatedFindings ((getModifiedProtoFiles diffLines statOk).map
    (fun f => compareProtoFile (pairOf f)))

/-! ## Well-formedness

The data-model invariants of a resolved descriptor tree: field numbers
are unique within a message, enum value numbers within an enum, service
names within a file, method names within a service.  The external parser
guarantees these for every tree it produces. -/

/-- Enum well-formedness: value numbers are unique. -/
def EnumDescriptor.wfB (e : EnumDescriptor) : Bool :=
  decide ((e.values.map EnumValue.number).Nodup)

mutual

/-- Message well-formedness: field numbers unique, local enums
well-formed, nested messages well-formed. -/
def MessageDescriptor.wfB : MessageDescriptor → Bool
  | .mk _ fs es ms =>
      decide ((fs.map Field.number).Nodup) && es.all EnumDescriptor.wfB && msgsWfB ms

/-- Well-formedness of every message of a list. -/
def msgsWfB : List MessageDescriptor → Bool
  | [] => true
  | m :: rest => MessageDescriptor.wfB m && msgsWfB rest

end

/-- Service well-formedness: method names unique. -/
def Service.wfB (s : Service) : Bool :=
  decide ((s.methods.map Method.name).Nodup)

/-- File well-formedness: all declarations well-formed and service names
unique. -/
def FileDescriptor.wfB (f : FileDescriptor) : Bool :=
  f.enums.all EnumDescriptor.wfB && msgsWfB f.messages
    && decide ((f.services.map Service.name).Nodup) && f.services.all Service.wfB

/-! ## Concrete descriptor fixtures used to instantiate the theorems -/

/-- Whether a finding is a field-removal finding. -/
def Finding.isFieldRemoved : Finding → Bool
  | .fieldRemoved _ _ _ => true
  | _ => false

/-- The field numbered 2 of the fixtures below. -/
def fieldB2 : Field := ⟨"b", 2, .int32, .optional⟩

/-- A repeated string field named `name`. -/
def fieldNamePrev : Field := ⟨"name", 1, .string, .repeated⟩

/-- The matched current field: renamed, retyped, narrowed to singular. -/
def fieldNameCurr : Field := ⟨"full_name", 1, .int64, .optional⟩

/-- A method whose response is server-streamed. -/
def methodGetPrev : Method := ⟨"Get", "test.Req", "test.Res", false, true⟩

/-- The same method with server streaming dropped. -/
def methodGetCurr : Method := ⟨"Get", "test.Req", "test.Res", false, false⟩

/-- A message with fields numbered 1, 2, 3. -/
def msgPrev123 : MessageDescriptor :=
  .mk "M" [⟨"a", 1, .string, .optional⟩, fieldB2,
    ⟨"c", 3, .string, .optional⟩] [] []

/-- The same message with the field numbered 2 dropped. -/
def msgCurr13 : MessageDescriptor :=
  .mk "M" [⟨"a", 1, .string, .optional⟩, ⟨"c", 3, .string, .optional⟩] [] []

/-- A message whose single field is a repeated string named `name`. -/
def msgRepPrev : MessageDescriptor := .mk "T" [fieldNamePrev] [] []

/-- A matched current message: field 1 renamed, retyped and narrowed to
singular. -/
def msgRepCurr : MessageDescriptor := .mk "T" [fieldNameCurr] [] []

/-- An enum fixture. -/
def enumStatus : EnumDescriptor := ⟨"Status", [⟨"UNKNOWN", 0⟩, ⟨"ACTIVE", 1⟩]⟩

/-- A service whose method server-streams its response. -/
def svcPrev : Service := ⟨"S", [methodGetPrev]⟩

/-- The same service with server streaming dropped. -/
def svcCurr : Service := ⟨"S", [methodGetCurr]⟩

/-- A file holding the previous service. -/
def fileSvcPrev : FileDescriptor := ⟨"a.proto", "test", [], [], [svcPrev]⟩

/-- A file holding the current service. -/
def fileSvcCurr : FileDescriptor := ⟨"a.proto", "test", [], [], [svcCurr]⟩

/-- A file holding two empty messages `A` and `B`. -/
def fileAB : FileDescriptor :=
  ⟨"a.proto", "test", [.mk "A" [] [] [], .mk "B" [] [] []], [], []⟩

/-- A file with no declarations at all. -/
def fileEmpty : FileDescriptor := ⟨"a.proto", "test", [], [], []⟩

/-- A file whose message `Outer` holds a nested message `Inner`. -/
def fileOuterInner : FileDescriptor :=
  ⟨"a.proto", "test", [.mk "Outer" [] [] [.mk "Inner" [] [] []]], [], []⟩

/-- The same file with only the inner message removed. -/
def fileOuterOnly : FileDescriptor :=
  ⟨"a.proto", "test", [.mk "Outer" [] [] []], [], []⟩

/-- A file exercising every comparator. -/
def sampleFile : FileDescriptor :=
  ⟨"a.proto", "test", [msgPrev123], [enumStatus], [svcPrev]⟩

/-- A file with package `p1`. -/
def filePkg1 : FileDescriptor := ⟨"a.proto", "p1", [msgPrev123], [enumStatus], []⟩

/-- The same declarations under package `p2` and another path. -/
def filePkg2 : FileDescriptor := ⟨"b.proto", "p2", [msgPrev123], [enumStatus], []⟩

/-! ## Lemmas about the Go-map model -/

section GoMap

variable {κ α : Type} [DecidableEq κ]

theorem find?_eq_some_of_nodup_keys {m : List (κ × α)} {k : κ} {v : α}
    (h : (m.map Prod.fst).Nodup) (hm : (k, v) ∈ m) :
    m.find? (fun p => decide (p.1 = k)) = some (k, v) := by
  induction m with
  | nil => simp at hm
  | cons p rest ih =>
    simp only [List.map_cons, List.nodup_cons] at h
    rcases List.mem_cons.1 hm with hp | hp
    · subst hp; simp [List.find?]
    · have hk : p.1 ≠ k := by
        intro hke
        exact h.1 (hke ▸ (List.mem_map.2 ⟨(k, v), hp, rfl⟩))
      have hd : decide (p.1 = k) = false := by simp [hk]
      simp only [List.find?, hd]
      exact ih h.2 hp

theorem goLookup_eq_some_of_mem {l : List (κ × α)} {k : κ} {v : α}
    (h : (l.map Prod.fst).Nodup) (hm : (k, v) ∈ l) :
    goLookup l k = some v := by
  have hrev : ((l.reverse.map Prod.fst)).Nodup := by
    rw [List.map_reverse, List.nodup_reverse]
    exact h
  have := find?_eq_some_of_nodup_keys (m := l.reverse) hrev (List.mem_reverse.2 hm)
  simp [goLookup, this]

theorem mem_of_goLookup_eq_some {l : List (κ × α)} {k : κ} {v : α}
    (h : goLookup l k = some v) : (k, v) ∈ l := by
  simp only [goLookup, Option.map_eq_some'] at h
  obtain ⟨p, hp, hv⟩ := h
  have hmem := List.mem_reverse.1 (List.mem_of_find?_eq_some hp)
  have hpred := List.find?_some hp
  simp only [decide_eq_true_eq] at hpred
  have : p = (k, v) := by
    cases p with
    | mk a b => simp at hpred hv; rw [hpred, hv]
  exact this ▸ hmem

theorem goLookup_eq_none_iff {l : List (κ × α)} {k : κ} :
    goLookup l k = none ↔ ∀ p ∈ l, p.1 ≠ k := by
  simp [goLookup, List.find?_eq_none]

theorem goLookup_isSome_of_mem_keys {l : List (κ × α)} {k : κ}
    (h : k ∈ l.map Prod.fst) : (goLookup l k).isSome := by
  obtain ⟨p, hp, hk⟩ := List.mem_map.1 h
  rw [Option.isSome_iff_ne_none]
  intro hnone
  exact goLookup_eq_none_iff.1 hnone p hp hk

theorem mem_goEntries {l : List (κ × α)} {k : κ} {v : α} :
    (k, v) ∈ goEntries l ↔ goLookup l k = some v := by
  constructor
  · intro h
    obtain ⟨a, _, ha⟩ := List.mem_filterMap.1 h
    simp only [Option.map_eq_some'] at ha
    obtain ⟨w, hw, hkv⟩ := ha
    obtain ⟨rfl, rfl⟩ := Prod.mk.injEq .. ▸ hkv
    exact hw
  · intro h
    refine List.mem_filterMap.2 ⟨k, ?_, by simp [h]⟩
    exact List.mem_dedup.2 (List.mem_map.2 ⟨(k, v), mem_of_goLookup_eq_some h, rfl⟩)

theorem map_fst_filterMap_lookup (l : List (κ × α)) (ks : List κ)
    (h : ∀ k ∈ ks, k ∈ l.map Prod.fst) :
    (ks.filterMap (fun k => (goLookup l k).map (fun v => (k, v)))).map Prod.fst = ks := by
  induction ks with
  | nil => rfl
  | cons k rest ih =>
    have hs := goLookup_isSome_of_mem_keys (h k (List.mem_cons_self k rest))
    obtain ⟨v, hv⟩ := Option.isSome_iff_exists.1 hs
    simp only [List.filterMap_cons, hv, Option.map_some', List.map_cons]
    rw [ih (fun a ha => h a (List.mem_cons_of_mem k ha))]

theorem map_fst_goEntries (l : List (κ × α)) :
    (goEntries l).map Prod.fst = goKeys l :=
  map_fst_filterMap_lookup l (goKeys l) (fun _ hk => (List.dedup_subset _) hk)

theorem goEntries_nodup_keys (l : List (κ × α)) :
    ((goEntries l).map Prod.fst).Nodup := by
  rw [map_fst_goEntries]; exact List.nodup_dedup _

theorem mem_of_mem_goEntries {l : List (κ × α)} {e : κ × α}
    (h : e ∈ goEntries l) : e ∈ l := by
  cases e with
  | mk k v => exact mem_of_goLookup_eq_some (mem_goEntries.1 h)

end GoMap

/-! ## Generic list helpers -/

theorem flatMap_eq_nil_of_forall {α β : Type} {l : List α} {f : α → List β}
    (h : ∀ a ∈ l, f a = []) : l.flatMap f = [] := by
  induction l with
  | nil => rfl
  | cons a rest ih =>
    rw [List.flatMap_cons, h a (List.mem_cons_self a rest),
      ih (fun b hb => h b (List.mem_cons_of_mem a hb))]
    rfl

theorem flatMap_eq_single {α β κ : Type} [DecidableEq κ] (key : α → κ) (q : κ) (x : β)
    (g : α → List β) :
    ∀ l : List α, (l.map key).count q = 1 →
      (∀ a ∈ l, g a = if key a = q then [x] else []) → l.flatMap g = [x] := by
  intro l
  induction l with
  | nil => intro h; simp at h
  | cons a rest ih =>
    intro hcount hg
    by_cases hq : key a = q
    · have h0 : (rest.map key).count q = 0 := by
        have := hcount
        rw [List.map_cons, List.count_cons, if_pos (by simp [hq])] at this
        omega
      have hrest : rest.flatMap g = [] := by
        refine flatMap_eq_nil_of_forall (fun b hb => ?_)
        have hbq : key b ≠ q := by
          intro hbe
          have : q ∈ rest.map key := List.mem_map.2 ⟨b, hb, hbe⟩
          rw [← List.count_pos_iff, h0] at this
          omega
        rw [hg b (List.mem_cons_of_mem a hb), if_neg hbq]
      rw [List.flatMap_cons, hg a (List.mem_cons_self a rest), if_pos hq, hrest]
      rfl
    · have h1 : (rest.map key).count q = 1 := by
        have := hcount
        rw [List.map_cons, List.count_cons, if_neg (by simp [hq])] at this
        omega
      rw [List.flatMap_cons, hg a (List.mem_cons_self a rest), if_neg hq,
        ih h1 (fun b hb => hg b (List.mem_cons_of_mem a hb))]
      rfl

/-! ## Well-formedness propagates to every flattened entry -/

theorem msgsWfB_of_mem {ms : List MessageDescriptor} {m : MessageDescriptor}
    (hwf : msgsWfB ms = true) (hm : m ∈ ms) : m.wfB = true := by
  induction ms with
  | nil => simp at hm
  | cons a rest ih =>
    rw [msgsWfB, Bool.and_eq_true] at hwf
    rcases List.mem_cons.1 hm with rfl | hm
    · exact hwf.1
    · exact ih hwf.2 hm

theorem wfB_nodup_fieldNumbers {m : MessageDescriptor} (h : m.wfB = true) :
    ((m.fields.map Field.number).Nodup) := by
  cases m with
  | mk n fs es ms =>
    rw [MessageDescriptor.wfB, Bool.and_eq_true, Bool.and_eq_true] at h
    exact of_decide_eq_true h.1.1

theorem wfB_enums_all {m : MessageDescriptor} (h : m.wfB = true) :
    m.enums.all EnumDescriptor.wfB = true := by
  cases m with
  | mk n fs es ms =>
    rw [MessageDescriptor.wfB, Bool.and_eq_true, Bool.and_eq_true] at h
    exact h.1.2

theorem wfB_msgs {m : MessageDescriptor} (h : m.wfB = true) :
    msgsWfB m.messages = true := by
  cases m with
  | mk n fs es ms =>
    rw [MessageDescriptor.wfB, Bool.and_eq_true, Bool.and_eq_true] at h
    exact h.2

theorem wfB_of_mem_collectNestedMessages (ms : List MessageDescriptor) (pre : String)
    (hwf : msgsWfB ms = true) {k : String} {m : MessageDescriptor}
    (hm : (k, m) ∈ collectNestedMessages ms pre) : m.wfB = true := by
  match ms with
  | [] => simp [collectNestedMessages] at hm
  | m0 :: rest =>
    rw [msgsWfB, Bool.and_eq_true] at hwf
    rw [collectNestedMessages] at hm
    rcases List.mem_append.1 hm with hone | hrest
    · cases m0 with
      | mk n fs es ms0 =>
        rw [collectNestedMessagesOne] at hone
        rcases List.mem_cons.1 hone with heq | htail
        · obtain ⟨-, rfl⟩ := Prod.mk.injEq .. ▸ heq
          exact hwf.1
        · exact wfB_of_mem_collectNestedMessages ms0 (pre ++ n ++ ".")
            (wfB_msgs hwf.1) htail
    · exact wfB_of_mem_collectNestedMessages rest pre hwf.2 hrest
termination_by sizeOf ms

theorem enumWfB_of_mem_collectNestedEnums (ms : List MessageDescriptor) (pre : String)
    (hwf : msgsWfB ms = true) {k : String} {e : EnumDescriptor}
    (hm : (k, e) ∈ collectNestedEnums ms pre) : e.wfB = true := by
  match ms with
  | [] => simp [collectNestedEnums] at hm
  | m0 :: rest =>
    rw [msgsWfB, Bool.and_eq_true] at hwf
    rw [collectNestedEnums] at hm
    rcases List.mem_append.1 hm with hone | hrest
    · cases m0 with
      | mk n fs es ms0 =>
        rw [collectNestedEnumsOne] at hone
        rcases List.mem_append.1 hone with hloc | htail
        · obtain ⟨e0, he0, heq⟩ := List.mem_map.1 hloc
          obtain ⟨-, rfl⟩ := Prod.mk.injEq .. ▸ heq
          have hall := wfB_enums_all hwf.1
          rw [List.all_eq_true] at hall
          exact hall e0 he0
        · exact enumWfB_of_mem_collectNestedEnums ms0 (pre ++ n ++ ".")
            (wfB_msgs hwf.1) htail
    · exact enumWfB_of_mem_collectNestedEnums rest pre hwf.2 hrest
termination_by sizeOf ms

theorem wfB_of_mem_msgInsertions {f : FileDescriptor}
    (hwf : msgsWfB f.messages = true) {k : String} {m : MessageDescriptor}
    (hm : (k, m) ∈ msgInsertions f) : m.wfB = true := by
  rcases List.mem_append.1 hm with htop | hcol
  · obtain ⟨m0, hm0, heq⟩ := List.mem_map.1 htop
    obtain ⟨-, rfl⟩ := Prod.mk.injEq .. ▸ heq
    exact msgsWfB_of_mem hwf hm0
  · exact wfB_of_mem_collectNestedMessages f.messages "" hwf hcol

theorem enumWfB_of_mem_enumInsertions {f : FileDescriptor}
    (hwfe : f.enums.all EnumDescriptor.wfB = true)
    (hwfm : msgsWfB f.messages = true) {k : String} {e : EnumDescriptor}
    (hm : (k, e) ∈ enumInsertions f) : e.wfB = true := by
  rcases List.mem_append.1 hm with htop | hcol
  · obtain ⟨e0, he0, heq⟩ := List.mem_map.1 htop
    obtain ⟨-, rfl⟩ := Prod.mk.injEq .. ▸ heq
    rw [List.all_eq_true] at hwfe
    exact hwfe e0 he0
  · exact enumWfB_of_mem_collectNestedEnums f.messages "" hwfm hcol

/-! ## Self-comparison yields no findings -/

theorem goLookup_fieldsByNumber_self {m : MessageDescriptor}
    (hnd : (m.fields.map Field.number).Nodup) {pf : Field} (h : pf ∈ m.fields) :
    goLookup (fieldsByNumber m) pf.number = some pf := by
  apply goLookup_eq_some_of_mem
  · rw [fieldsByNumber, List.map_map]
    exact hnd
  · exact List.mem_map.2 ⟨pf, h, rfl⟩

theorem fieldFindings_self {msgName : String} {m : MessageDescriptor}
    (hnd : (m.fields.map Field.number).Nodup) {pf : Field} (h : pf ∈ m.fields) :
    fieldFindings msgName (fieldsByNumber m) pf = [] := by
  rw [fieldFindings, goLookup_fieldsByNumber_self hnd h]
  simp

theorem compareFields_self {pm cm : MessageDescriptor}
    (hf : pm.fields = cm.fields) (hnd : (pm.fields.map Field.number).Nodup) :
    compareFields pm cm = [] := by
  refine flatMap_eq_nil_of_forall (fun pf hpf => ?_)
  have hnd' : (cm.fields.map Field.number).Nodup := hf ▸ hnd
  exact fieldFindings_self hnd' (hf ▸ hpf)

theorem enumValueFindings_self {enumName : String} {e : EnumDescriptor}
    (hnd : (e.values.map EnumValue.number).Nodup) {pv : EnumValue} (h : pv ∈ e.values) :
    enumValueFindings enumName (e.values.map (fun v => (v.number, v))) pv = [] := by
  have hlk : goLookup (e.values.map (fun v => (v.number, v))) pv.number = some pv := by
    apply goLookup_eq_some_of_mem
    · rw [List.map_map]; exact hnd
    · exact List.mem_map.2 ⟨pv, h, rfl⟩
  rw [enumValueFindings, hlk]
  simp

theorem enumEntryFindings_self {f g : FileDescriptor}
    (henums : f.enums = g.enums) (hmsgs : f.messages = g.messages)
    (hwfe : f.enums.all EnumDescriptor.wfB = true)
    (hwfm : msgsWfB f.messages = true)
    {e : String × EnumDescriptor} (he : e ∈ goEntries (enumInsertions f)) :
    enumEntryFindings (enumInsertions g) e = [] := by
  have hins : enumInsertions g = enumInsertions f := by
    rw [enumInsertions, enumInsertions, henums, hmsgs]
  cases e with
  | mk k ed =>
    have hlk : goLookup (enumInsertions f) k = some ed := mem_goEntries.1 he
    have hwf : ed.wfB = true :=
      enumWfB_of_mem_enumInsertions hwfe hwfm (mem_of_goLookup_eq_some hlk)
    rw [enumEntryFindings, hins]
    simp only [hlk]
    exact flatMap_eq_nil_of_forall (fun pv hpv =>
      enumValueFindings_self (of_decide_eq_true hwf) hpv)

theorem methodFindings_self {serviceName : String} {m : Method} :
    methodFindings serviceName m m = [] := by
  simp [methodFindings]

theorem serviceFindings_self {f g : FileDescriptor}
    (hsvcs : f.services = g.services)
    (hnd : (f.services.map Service.name).Nodup)
    (hall : f.services.all Service.wfB = true)
    {ps : Service} (hps : ps ∈ f.services) :
    serviceFindings (g.services.map (fun s => (s.name, s))) ps = [] := by
  have hlk : goLookup (g.services.map (fun s => (s.name, s))) ps.name = some ps := by
    apply goLookup_eq_some_of_mem
    · rw [List.map_map, ← hsvcs]; exact hnd
    · rw [← hsvcs]; exact List.mem_map.2 ⟨ps, hps, rfl⟩
  rw [serviceFindings, hlk]
  refine flatMap_eq_nil_of_forall (fun pm hpm => ?_)
  rw [List.all_eq_true] at hall
  have hndm : (ps.methods.map Method.name).Nodup := of_decide_eq_true (hall ps hps)
  have hlkm : goLookup (ps.methods.map (fun m => (m.name, m))) pm.name = some pm := by
    apply goLookup_eq_some_of_mem
    · rw [List.map_map]; exact hndm
    · exact List.mem_map.2 ⟨pm, hpm, rfl⟩
  rw [methodEntryFindings, hlkm]
  exact methodFindings_self

theorem compareServices_self {f g : FileDescriptor}
    (hsvcs : f.services = g.services)
    (hnd : (f.services.map Service.name).Nodup)
    (hall : f.services.all Service.wfB = true) :
    compareServices f g = [] :=
  flatMap_eq_nil_of_forall (fun _ps hps => serviceFindings_self hsvcs hnd hall hps)

theorem msgEntryFindings_self {f g : FileDescriptor}
    (hmsgs : f.messages = g.messages) (hwfm : msgsWfB f.messages = true)
    {e : String × MessageDescriptor} (he : e ∈ goEntries (msgInsertions f)) :
    msgEntryFindings (msgInsertions g) e = [] := by
  have hins : msgInsertions g = msgInsertions f := by
    rw [msgInsertions, msgInsertions, hmsgs]
  cases e with
  | mk k md =>
    have hlk : goLookup (msgInsertions f) k = some md := mem_goEntries.1 he
    have hwf : md.wfB = true :=
      wfB_of_mem_msgInsertions hwfm (mem_of_goLookup_eq_some hlk)
    rw [msgEntryFindings, hins]
    simp only [hlk]
    exact compareFields_self rfl (wfB_nodup_fieldNumbers hwf)

theorem compareMessages_self {f g : FileDescriptor}
    (hmsgs : f.messages = g.messages) (hwfm : msgsWfB f.messages = true) :
    compareMessages f g = [] :=
  flatMap_eq_nil_of_forall (fun _e he => msgEntryFindings_self hmsgs hwfm he)

theorem compareEnums_self {f g : FileDescriptor}
    (henums : f.enums = g.enums) (hmsgs : f.messages = g.messages)
    (hwfe : f.enums.all EnumDescriptor.wfB = true)
    (hwfm : msgsWfB f.messages = true) :
    compareEnums f g = [] :=
  flatMap_eq_nil_of_forall (fun _e he =>
    enumEntryFindings_self henums hmsgs hwfe hwfm he)

/-! ## Membership characterizations of the per-field findings -/

theorem fieldFindings_of_none {msgName : String} {curr : List (Nat × Field)} {pf : Field}
    (h : goLookup curr pf.number = none) :
    fieldFindings msgName curr pf = [Finding.fieldRemoved pf.name pf.number msgName] := by
  rw [fieldFindings, h]

theorem fieldFindings_of_some {msgName : String} {curr : List (Nat × Field)}
    {pf cf : Field} (h : goLookup curr pf.number = some cf) :
    fieldFindings msgName curr pf =
      ((if pf.name ≠ cf.name then [Finding.fieldRenamed pf.name cf.name msgName] else [])
        ++ (if pf.kind ≠ cf.kind then
            [Finding.fieldTypeChanged pf.name pf.kind cf.kind msgName] else []))
      ++ (if pf.cardinality ≠ cf.cardinality then
            (if pf.cardinality = Cardinality.repeated ∧
                cf.cardinality ≠ Cardinality.repeated then
              [Finding.fieldCardinalityChanged pf.name msgName] else [])
          else []) := by
  rw [fieldFindings, h]

theorem mem_fieldFindings_matched {msgName : String} {curr : List (Nat × Field)}
    {pf cf : Field} (h : goLookup curr pf.number = some cf) {x : Finding}
    (hx : x ∈ fieldFindings msgName curr pf) :
    (pf.name ≠ cf.name ∧ x = Finding.fieldRenamed pf.name cf.name msgName)
    ∨ (pf.kind ≠ cf.kind ∧ x = Finding.fieldTypeChanged pf.name pf.kind cf.kind msgName)
    ∨ (pf.cardinality = Cardinality.repeated ∧ cf.cardinality ≠ Cardinality.repeated
        ∧ x = Finding.fieldCardinalityChanged pf.name msgName) := by
  rw [fieldFindings, h] at hx
  rcases List.mem_append.1 hx with hx | hx
  · rcases List.mem_append.1 hx with hx | hx
    · by_cases hc : pf.name ≠ cf.name
      · rw [if_pos hc] at hx
        exact Or.inl ⟨hc, List.mem_singleton.1 hx⟩
      · rw [if_neg hc] at hx; cases hx
    · by_cases hc : pf.kind ≠ cf.kind
      · rw [if_pos hc] at hx
        exact Or.inr (Or.inl ⟨hc, List.mem_singleton.1 hx⟩)
      · rw [if_neg hc] at hx; cases hx
  · by_cases hc : pf.cardinality ≠ cf.cardinality
    · rw [if_pos hc] at hx
      by_cases hc2 : pf.cardinality = Cardinality.repeated ∧
          cf.cardinality ≠ Cardinality.repeated
      · rw [if_pos hc2] at hx
        exact Or.inr (Or.inr ⟨hc2.1, hc2.2, List.mem_singleton.1 hx⟩)
      · rw [if_neg hc2] at hx; cases hx
    · rw [if_neg hc] at hx; cases hx

theorem fieldRemoved_mem_compareFields {prev curr : MessageDescriptor}
    {a : String} {n : Nat} {msg : String}
    (hx : Finding.fieldRemoved a n msg ∈ compareFields prev curr) :
    ∃ pf ∈ prev.fields, goLookup (fieldsByNumber curr) pf.number = none
      ∧ pf.name = a ∧ pf.number = n := by
  obtain ⟨pf, hpf, hmem⟩ := List.mem_flatMap.1 hx
  cases h : goLookup (fieldsByNumber curr) pf.number with
  | none =>
    rw [fieldFindings_of_none h] at hmem
    simp only [List.mem_singleton, Finding.fieldRemoved.injEq] at hmem
    exact ⟨pf, hpf, h, hmem.1.symm, hmem.2.1.symm⟩
  | some cf =>
    rcases mem_fieldFindings_matched h hmem with ⟨-, he⟩ | ⟨-, he⟩ | ⟨-, -, he⟩ <;>
      simp at he

theorem goLookup_fieldsByNumber_eq_none {m : MessageDescriptor} {n : Nat} :
    goLookup (fieldsByNumber m) n = none ↔ ∀ cf ∈ m.fields, cf.number ≠ n := by
  rw [goLookup_eq_none_iff]
  constructor
  · intro h cf hcf
    exact h (cf.number, cf) (List.mem_map.2 ⟨cf, hcf, rfl⟩)
  · intro h p hp
    obtain ⟨f, hf, heq⟩ := List.mem_map.1 hp
    rw [← heq]
    exact h f hf

theorem countP_flatMap {α β : Type} (l : List α) (f : α → List β) (p : β → Bool) :
    (l.flatMap f).countP p = (l.map (fun a => (f a).countP p)).sum := by
  induction l with
  | nil => rfl
  | cons a rest ih =>
    rw [List.flatMap_cons, List.countP_append, List.map_cons, List.sum_cons, ih]

theorem countP_fieldFindings_none {msgName : String} {curr : List (Nat × Field)}
    {pf : Field} (h : goLookup curr pf.number = none) :
    (fieldFindings msgName curr pf).countP Finding.isFieldRemoved = 1 := by
  rw [fieldFindings_of_none h]; rfl

theorem countP_fieldFindings_some {msgName : String} {curr : List (Nat × Field)}
    {pf cf : Field} (h : goLookup curr pf.number = some cf) :
    (fieldFindings msgName curr pf).countP Finding.isFieldRemoved = 0 := by
  rw [fieldFindings, h, List.countP_append, List.countP_append]
  have cA : (if pf.name ≠ cf.name then
      [Finding.fieldRenamed pf.name cf.name msgName] else []).countP
        Finding.isFieldRemoved = 0 := by split_ifs <;> rfl
  have cB : (if pf.kind ≠ cf.kind then
      [Finding.fieldTypeChanged pf.name pf.kind cf.kind msgName] else []).countP
        Finding.isFieldRemoved = 0 := by split_ifs <;> rfl
  have cC : (if pf.cardinality ≠ cf.cardinality then
      (if pf.cardinality = Cardinality.repeated ∧ cf.cardinality ≠ Cardinality.repeated then
        [Finding.fieldCardinalityChanged pf.name msgName] else []) else []).countP
        Finding.isFieldRemoved = 0 := by split_ifs <;> rfl
  rw [cA, cB, cC]

theorem countP_compareFields_removed (prev curr : MessageDescriptor) :
    (compareFields prev curr).countP Finding.isFieldRemoved
      = (prev.fields.filter
          (fun f => (goLookup (fieldsByNumber curr) f.number).isNone)).length := by
  rw [compareFields, countP_flatMap]
  induction prev.fields with
  | nil => rfl
  | cons f rest ih =>
    rw [List.map_cons, List.sum_cons, ih]
    cases h : goLookup (fieldsByNumber curr) f.number with
    | none =>
      rw [countP_fieldFindings_none h, List.filter_cons_of_pos (by simp [h]),
        List.length_cons]
      omega
    | some cf =>
      rw [countP_fieldFindings_some h, List.filter_cons_of_neg (by simp [h])]
      omega

/-! ## Lemmas about the orchestrating run -/

theorem hasBreakingChanges_foldl_aux (l : List (Except String (List Finding))) :
    ∀ acc : Bool,
      l.foldl (fun acc r => match r with
        | .error _ => acc
        | .ok findings => if findings.isEmpty then acc else true) acc
      = (acc || l.any (fun r => match r with
          | .error _ => false
          | .ok findings => !findings.isEmpty)) := by
  induction l with
  | nil => intro acc; simp
  | cons a rest ih =>
    intro acc
    rw [List.foldl_cons, ih, List.any_cons]
    cases a with
    | error e => simp
    | ok fs => cases hfs : fs.isEmpty <;> simp [hfs, Bool.or_assoc]

theorem hasBreakingChanges_eq_any (l : List (Except String (List Finding))) :
    hasBreakingChanges l = l.any (fun r => match r with
      | .error _ => false
      | .ok findings => !findings.isEmpty) := by
  rw [hasBreakingChanges, hasBreakingChanges_foldl_aux]
  simp

theorem hasBreakingChanges_eq_not_isEmpty (l : List (Except String (List Finding))) :
    hasBreakingChanges l = !(runAggregatedFindings l).isEmpty := by
  rw [hasBreakingChanges_eq_any]
  induction l with
  | nil => rfl
  | cons a rest ih =>
    rw [List.any_cons, ih]
    simp only [runAggregatedFindings, List.flatMap_cons]
    cases a with
    | error e => simp
    | ok fs =>
      cases fs with
      | nil => simp
      | cons b bs => simp

/-! ## The claims -/

/-- Claim C8: comparing a (well-formed) descriptor tree against itself
yields an empty findings list from the message, enum, and service
comparators combined. -/
theorem claim_C8 (f : FileDescriptor) (hwf : f.wfB = true) :
    compareProtoFileFindings f f = [] := by
  simp only [FileDescriptor.wfB, Bool.and_eq_true] at hwf
  obtain ⟨⟨⟨he, hm⟩, hsn⟩, hsw⟩ := hwf
  rw [compareProtoFileFindings, compareMessages_self rfl hm,
    compareEnums_self rfl rfl he hm,
    compareServices_self rfl (of_decide_eq_true hsn) hsw]
  rfl

/-- Witness for C8 at a concrete file exercising all three comparators. -/
theorem claim_C8_witness :
    sampleFile.wfB = true ∧ compareProtoFileFindings sampleFile sampleFile = [] :=
  ⟨by decide, claim_C8 sampleFile (by decide)⟩

/-- Claim C9: a failed file-pair contributes zero findings to the run's
aggregate and leaves the breaking flag untouched (the loop continues
with the remaining pairs), and the overall breaking/clean signal is
computed exactly from the findings of the pairs that succeeded. -/
theorem claim_C9 :
    (∀ (xs ys : List (Except String (FileDescriptor × FileDescriptor))) (e : String),
      runAggregatedFindings ((xs ++ Except.error e :: ys).map compareProtoFile)
        = runAggregatedFindings ((xs ++ ys).map compareProtoFile)
      ∧ hasBreakingChanges ((xs ++ Except.error e :: ys).map compareProtoFile)
        = hasBreakingChanges ((xs ++ ys).map compareProtoFile))
    ∧ (∀ pairs : List (Except String (FileDescriptor × FileDescriptor)),
      hasBreakingChanges (pairs.map compareProtoFile)
        = !(runAggregatedFindings (pairs.map compareProtoFile)).isEmpty) := by
  refine ⟨fun xs ys e => ⟨?_, ?_⟩, fun pairs => hasBreakingChanges_eq_not_isEmpty _⟩
  · simp [runAggregatedFindings, compareProtoFile, Except.map]
  · rw [hasBreakingChanges_eq_any, hasBreakingChanges_eq_any]
    simp [compareProtoFile, Except.map]

/-- Claim C10: the comparison never reads the declared package: the
qualified-name keys are built from declaration names only, so two
well-formed files with identical message and enum declarations and no
services (whatever their packages and paths) compare with an empty
findings list. -/
theorem claim_C10 (f1 f2 : FileDescriptor) (hm : f1.messages = f2.messages)
    (he : f1.enums = f2.enums) (hs1 : f1.services = []) (_hs2 : f2.services = [])
    (hwfm : msgsWfB f1.messages = true)
    (hwfe : f1.enums.all EnumDescriptor.wfB = true) :
    compareProtoFileFindings f1 f2 = [] := by
  have hsv : compareServices f1 f2 = [] := by
    rw [compareServices, hs1]; rfl
  rw [compareProtoFileFindings, compareMessages_self hm hwfm,
    compareEnums_self he hm hwfe hwfm, hsv]
  rfl

/-- Witness for C10: the same declarations under packages `p1` and `p2`
(and different paths) yield no findings. -/
theorem claim_C10_witness :
    filePkg1.pkg ≠ filePkg2.pkg ∧ filePkg1.messages = filePkg2.messages
    ∧ filePkg1.enums = filePkg2.enums ∧ filePkg1.services = []
    ∧ filePkg2.services = [] ∧ compareProtoFileFindings filePkg1 filePkg2 = [] :=
  ⟨by decide, rfl, rfl, rfl, rfl,
    claim_C10 filePkg1 filePkg2 rfl rfl rfl rfl (by decide) (by decide)⟩

/-- Counterexample to claim C1: the previous snapshot has package `p`
with one file `p/file.proto`, the current snapshot has no file under
`p` (the file is deleted, so `os.Stat` fails); the run then skips the
file entirely and its aggregated findings are empty — it contains no
package-removed finding at all, rather than exactly one. -/
theorem claim_C1_counterexample :
    getModifiedProtoFiles ["p/file.proto"] (fun _ => false) = []
    ∧ runFindings ["p/file.proto"] (fun _ => false)
        (fun _ => Except.error "file deleted") = [] := by
  exact ⟨by decide, by decide⟩

/-- Claim C1 as amended: a file that no longer exists in the current
working tree is filtered out by `getModifiedProtoFiles` — every file the
run processes passes the `os.Stat` check, so a deleted package
contributes zero findings, and no package-removed finding kind exists in
the code. -/
theorem claim_C1_amended (diffLines : List String) (statOk : String → Bool)
    (f : String) (h : f ∈ getModifiedProtoFiles diffLines statOk) :
    statOk f = true := by
  have hp := (List.mem_filter.1 h).2
  simp only [Bool.and_eq_true] at hp
  exact hp.2

/-- Witness for the amended C1: a surviving file passes the filter and
indeed satisfies the stat check. -/
theorem claim_C1_amended_witness :
    ("a.proto" ∈ getModifiedProtoFiles ["a.proto"] (fun _ => true))
    ∧ (fun _ : String => true) "a.proto" = true :=
  ⟨by decide, claim_C1_amended ["a.proto"] (fun _ => true) "a.proto" (by decide)⟩

/-- Claim C3: a field-removed finding for a previous field is emitted
iff no field with the same number exists in the current message (the
name plays no role), the finding reports the previous name and number,
and the total number of removal findings equals the number of previous
fields whose number is missing — so the other fields produce none. -/
theorem claim_C3 (prev curr : MessageDescriptor) (pf : Field) (h : pf ∈ prev.fields) :
    (Finding.fieldRemoved pf.name pf.number prev.name ∈ compareFields prev curr
      ↔ ∀ cf ∈ curr.fields, cf.number ≠ pf.number)
    ∧ (compareFields prev curr).countP Finding.isFieldRemoved
        = (prev.fields.filter
            (fun f => decide (∀ cf ∈ curr.fields, cf.number ≠ f.number))).length := by
  constructor
  · constructor
    · intro hx
      obtain ⟨pf', hpf', hnone, -, hnum⟩ := fieldRemoved_mem_compareFields hx
      rw [hnum] at hnone
      exact goLookup_fieldsByNumber_eq_none.1 hnone
    · intro hno
      refine List.mem_flatMap.2 ⟨pf, h, ?_⟩
      rw [fieldFindings_of_none (goLookup_fieldsByNumber_eq_none.2 hno)]
      exact List.mem_singleton.2 rfl
  · rw [countP_compareFields_removed]
    refine congrArg List.length (List.filter_congr (fun f _hf => ?_))
    by_cases hc : ∀ cf ∈ curr.fields, cf.number ≠ f.number
    · have hn : goLookup (fieldsByNumber curr) f.number = none :=
        goLookup_fieldsByNumber_eq_none.2 hc
      simp [hn]
      exact hc
    · have hn : ¬ goLookup (fieldsByNumber curr) f.number = none :=
        fun he => hc (goLookup_fieldsByNumber_eq_none.1 he)
      cases hg : goLookup (fieldsByNumber curr) f.number with
      | none => exact absurd hg hn
      | some v => simp [hg, hc]

/-- Witness for C3: fields 1, 2, 3 where the current message drops
number 2. -/
theorem claim_C3_witness :
    (fieldB2 ∈ msgPrev123.fields)
    ∧ ((Finding.fieldRemoved fieldB2.name fieldB2.number msgPrev123.name
          ∈ compareFields msgPrev123 msgCurr13
        ↔ ∀ cf ∈ msgCurr13.fields, cf.number ≠ fieldB2.number)
      ∧ (compareFields msgPrev123 msgCurr13).countP Finding.isFieldRemoved
          = (msgPrev123.fields.filter
              (fun f => decide (∀ cf ∈ msgCurr13.fields, cf.number ≠ f.number))).length) :=
  ⟨by decide, claim_C3 msgPrev123 msgCurr13 fieldB2 (by decide)⟩

/-- Claim C4: for a matched field pair, a rename finding is emitted iff
the names differ and a type-change finding iff the kinds differ,
independently of the other checks; when the name, kind and cardinality
checks all fire, their three findings appear contiguously in that fixed
order — a rename does not suppress the later checks. -/
theorem claim_C4 (prev curr : MessageDescriptor) (pf cf : Field)
    (h1 : pf ∈ prev.fields)
    (h2 : goLookup (fieldsByNumber curr) pf.number = some cf) :
    (Finding.fieldRenamed pf.name cf.name prev.name ∈ compareFields prev curr
      ↔ pf.name ≠ cf.name)
    ∧ (Finding.fieldTypeChanged pf.name pf.kind cf.kind prev.name ∈ compareFields prev curr
      ↔ pf.kind ≠ cf.kind)
    ∧ (pf.name ≠ cf.name → pf.kind ≠ cf.kind → pf.cardinality = Cardinality.repeated →
        cf.cardinality ≠ Cardinality.repeated →
        List.IsInfix
          [Finding.fieldRenamed pf.name cf.name prev.name,
            Finding.fieldTypeChanged pf.name pf.kind cf.kind prev.name,
            Finding.fieldCardinalityChanged pf.name prev.name]
          (compareFields prev curr)) := by
  refine ⟨⟨?_, ?_⟩, ⟨?_, ?_⟩, ?_⟩
  · intro hx
    obtain ⟨pf', hpf', hmem⟩ := List.mem_flatMap.1 hx
    cases h : goLookup (fieldsByNumber curr) pf'.number with
    | none =>
      rw [fieldFindings_of_none h] at hmem
      simp at hmem
    | some cf' =>
      rcases mem_fieldFindings_matched h hmem with ⟨hne, he⟩ | ⟨-, he⟩ | ⟨-, -, he⟩
      · simp only [Finding.fieldRenamed.injEq] at he
        rw [← he.1, ← he.2.1] at hne
        exact hne
      · simp at he
      · simp at he
  · intro hne
    refine List.mem_flatMap.2 ⟨pf, h1, ?_⟩
    rw [fieldFindings_of_some h2, if_pos hne]
    exact List.mem_append.2 (Or.inl (List.mem_append.2 (Or.inl
      (List.mem_singleton.2 rfl))))
  · intro hx
    obtain ⟨pf', hpf', hmem⟩ := List.mem_flatMap.1 hx
    cases h : goLookup (fieldsByNumber curr) pf'.number with
    | none =>
      rw [fieldFindings_of_none h] at hmem
      simp at hmem
    | some cf' =>
      rcases mem_fieldFindings_matched h hmem with ⟨-, he⟩ | ⟨hne, he⟩ | ⟨-, -, he⟩
      · simp at he
      · simp only [Finding.fieldTypeChanged.injEq] at he
        rw [← he.2.1, ← he.2.2.1] at hne
        exact hne
      · simp at he
  · intro hne
    refine List.mem_flatMap.2 ⟨pf, h1, ?_⟩
    rw [fieldFindings_of_some h2, if_pos hne]
    exact List.mem_append.2 (Or.inl (List.mem_append.2 (Or.inr
      (List.mem_singleton.2 rfl))))
  · intro hn hk hrep hcnr
    have hcd : pf.cardinality ≠ cf.cardinality := by
      intro he; exact hcnr (he ▸ hrep)
    have hchunk : fieldFindings prev.name (fieldsByNumber curr) pf
        = [Finding.fieldRenamed pf.name cf.name prev.name,
            Finding.fieldTypeChanged pf.name pf.kind cf.kind prev.name,
            Finding.fieldCardinalityChanged pf.name prev.name] := by
      rw [fieldFindings_of_some h2, if_pos hn, if_pos hk, if_pos hcd, if_pos ⟨hrep, hcnr⟩]
      rfl
    have hmm : fieldFindings prev.name (fieldsByNumber curr) pf
        ∈ prev.fields.map (fieldFindings prev.name (fieldsByNumber curr)) :=
      List.mem_map_of_mem _ h1
    rw [← hchunk]
    exact List.infix_of_mem_flatten hmm

/-- Witness for C4: a matched field that is simultaneously renamed,
retyped and narrowed to singular. -/
theorem claim_C4_witness :
    (fieldNamePrev ∈ msgRepPrev.fields)
    ∧ goLookup (fieldsByNumber msgRepCurr) fieldNamePrev.number = some fieldNameCurr
    ∧ ((Finding.fieldRenamed fieldNamePrev.name fieldNameCurr.name msgRepPrev.name
          ∈ compareFields msgRepPrev msgRepCurr
        ↔ fieldNamePrev.name ≠ fieldNameCurr.name)
      ∧ (Finding.fieldTypeChanged fieldNamePrev.name fieldNamePrev.kind fieldNameCurr.kind
            msgRepPrev.name ∈ compareFields msgRepPrev msgRepCurr
        ↔ fieldNamePrev.kind ≠ fieldNameCurr.kind)
      ∧ (fieldNamePrev.name ≠ fieldNameCurr.name → fieldNamePrev.kind ≠ fieldNameCurr.kind →
          fieldNamePrev.cardinality = Cardinality.repeated →
          fieldNameCurr.cardinality ≠ Cardinality.repeated →
          List.IsInfix
            [Finding.fieldRenamed fieldNamePrev.name fieldNameCurr.name msgRepPrev.name,
              Finding.fieldTypeChanged fieldNamePrev.name fieldNamePrev.kind
                fieldNameCurr.kind msgRepPrev.name,
              Finding.fieldCardinalityChanged fieldNamePrev.name msgRepPrev.name]
            (compareFields msgRepPrev msgRepCurr))) :=
  ⟨by decide, by decide,
    claim_C4 msgRepPrev msgRepCurr fieldNamePrev fieldNameCurr (by decide) (by decide)⟩

/-- Claim C5: cardinality findings are asymmetric: for a matched field
pair (in a message with distinct field names, per the data model), the
cardinality finding is emitted iff the previous cardinality is repeated
and the current one is not; in particular no cardinality finding is ever
emitted when the previous cardinality is not repeated, whatever the
kinds. -/
theorem claim_C5 (prev curr : MessageDescriptor) (pf cf : Field)
    (hnd : (prev.fields.map Field.name).Nodup)
    (h1 : pf ∈ prev.fields)
    (h2 : goLookup (fieldsByNumber curr) pf.number = some cf) :
    Finding.fieldCardinalityChanged pf.name prev.name ∈ compareFields prev curr
      ↔ (pf.cardinality = Cardinality.repeated
          ∧ cf.cardinality ≠ Cardinality.repeated) := by
  constructor
  · intro hx
    obtain ⟨pf', hpf', hmem⟩ := List.mem_flatMap.1 hx
    cases h : goLookup (fieldsByNumber curr) pf'.number with
    | none =>
      rw [fieldFindings_of_none h] at hmem
      simp at hmem
    | some cf' =>
      rcases mem_fieldFindings_matched h hmem with ⟨-, he⟩ | ⟨-, he⟩ | ⟨hrep, hcnr, he⟩
      · simp at he
      · simp at he
      · simp only [Finding.fieldCardinalityChanged.injEq] at he
        have hpp : pf' = pf :=
          List.inj_on_of_nodup_map hnd hpf' h1 he.1.symm
        rw [hpp] at h
        rw [h2] at h
        obtain rfl := Option.some.injEq .. ▸ h
        exact ⟨hpp ▸ hrep, hcnr⟩
  · intro ⟨hrep, hcnr⟩
    have hcd : pf.cardinality ≠ cf.cardinality := by
      intro he; exact hcnr (he ▸ hrep)
    refine List.mem_flatMap.2 ⟨pf, h1, ?_⟩
    rw [fieldFindings_of_some h2, if_pos hcd,
      if_pos (show pf.cardinality = Cardinality.repeated ∧
        cf.cardinality ≠ Cardinality.repeated from ⟨hrep, hcnr⟩)]
    exact List.mem_append.2 (Or.inr (List.mem_singleton.2 rfl))

/-- Witness for C5: the repeated field narrowed to singular produces the
cardinality finding. -/
theorem claim_C5_witness :
    ((msgRepPrev.fields.map Field.name).Nodup)
    ∧ (fieldNamePrev ∈ msgRepPrev.fields)
    ∧ goLookup (fieldsByNumber msgRepCurr) fieldNamePrev.number = some fieldNameCurr
    ∧ (Finding.fieldCardinalityChanged fieldNamePrev.name msgRepPrev.name
          ∈ compareFields msgRepPrev msgRepCurr
      ↔ (fieldNamePrev.cardinality = Cardinality.repeated
          ∧ fieldNameCurr.cardinality ≠ Cardinality.repeated)) :=
  ⟨by decide, by decide, by decide,
    claim_C5 msgRepPrev msgRepCurr fieldNamePrev fieldNameCurr
      (by decide) (by decide) (by decide)⟩

/-- Claim C7: for a matched method pair, each of the four aspects (input
type, output type, client-streaming flag, server-streaming flag) that
differs produces its own finding, with no short-circuiting; when only
the server-streaming flag differs, the method's findings are exactly the
one server-streaming-changed finding. -/
theorem claim_C7 (prev curr : FileDescriptor) (ps cs : Service) (pm cm : Method)
    (h1 : ps ∈ prev.services)
    (h2 : goLookup (curr.services.map (fun s => (s.name, s))) ps.name = some cs)
    (h3 : pm ∈ ps.methods)
    (h4 : goLookup (cs.methods.map (fun m => (m.name, m))) pm.name = some cm) :
    (pm.inputType ≠ cm.inputType →
      Finding.methodInputChanged pm.name pm.inputType cm.inputType ps.name
        ∈ compareServices prev curr)
    ∧ (pm.outputType ≠ cm.outputType →
      Finding.methodOutputChanged pm.name pm.outputType cm.outputType ps.name
        ∈ compareServices prev curr)
    ∧ (pm.clientStreaming ≠ cm.clientStreaming →
      Finding.methodClientStreamingChanged pm.name pm.clientStreaming cm.clientStreaming
        ps.name ∈ compareServices prev curr)
    ∧ (pm.serverStreaming ≠ cm.serverStreaming →
      Finding.methodServerStreamingChanged pm.name pm.serverStreaming cm.serverStreaming
        ps.name ∈ compareServices prev curr)
    ∧ (pm.inputType = cm.inputType → pm.outputType = cm.outputType →
        pm.clientStreaming = cm.clientStreaming → pm.serverStreaming ≠ cm.serverStreaming →
        methodFindings ps.name pm cm
          = [Finding.methodServerStreamingChanged pm.name pm.serverStreaming
              cm.serverStreaming ps.name]) := by
  have hlift : ∀ x ∈ methodFindings ps.name pm cm, x ∈ compareServices prev curr := by
    intro x hx
    refine List.mem_flatMap.2 ⟨ps, h1, ?_⟩
    rw [serviceFindings, h2]
    refine List.mem_flatMap.2 ⟨pm, h3, ?_⟩
    rw [methodEntryFindings, h4]
    exact hx
  refine ⟨fun hin => hlift _ ?_, fun hout => hlift _ ?_, fun hcs => hlift _ ?_,
    fun hss => hlift _ ?_, fun hi ho hc hs => ?_⟩
  · rw [methodFindings]
    refine List.mem_append.2 (Or.inl (List.mem_append.2 (Or.inl
      (List.mem_append.2 (Or.inl ?_)))))
    rw [if_pos hin]
    exact List.mem_singleton.2 rfl
  · rw [methodFindings]
    refine List.mem_append.2 (Or.inl (List.mem_append.2 (Or.inl
      (List.mem_append.2 (Or.inr ?_)))))
    rw [if_pos hout]
    exact List.mem_singleton.2 rfl
  · rw [methodFindings]
    refine List.mem_append.2 (Or.inl (List.mem_append.2 (Or.inr ?_)))
    rw [if_pos hcs]
    exact List.mem_singleton.2 rfl
  · rw [methodFindings]
    refine List.mem_append.2 (Or.inr ?_)
    rw [if_pos hss]
    exact List.mem_singleton.2 rfl
  · rw [methodFindings, if_neg (by simp [hi]), if_neg (by simp [ho]),
      if_neg (by simp [hc]), if_pos hs]
    rfl

/-- Witness for C7: dropping only server streaming yields exactly the
server-streaming-changed finding. -/
theorem claim_C7_witness :
    (svcPrev ∈ fileSvcPrev.services)
    ∧ goLookup (fileSvcCurr.services.map (fun s => (s.name, s))) svcPrev.name = some svcCurr
    ∧ (methodGetPrev ∈ svcPrev.methods)
    ∧ goLookup (svcCurr.methods.map (fun m => (m.name, m))) methodGetPrev.name
        = some methodGetCurr
    ∧ (methodGetPrev.inputType = methodGetCurr.inputType)
    ∧ (methodGetPrev.serverStreaming ≠ methodGetCurr.serverStreaming)
    ∧ (methodGetPrev.serverStreaming ≠ methodGetCurr.serverStreaming →
        Finding.methodServerStreamingChanged methodGetPrev.name methodGetPrev.serverStreaming
          methodGetCurr.serverStreaming svcPrev.name ∈ compareServices fileSvcPrev fileSvcCurr)
    ∧ (methodGetPrev.inputType = methodGetCurr.inputType →
        methodGetPrev.outputType = methodGetCurr.outputType →
        methodGetPrev.clientStreaming = methodGetCurr.clientStreaming →
        methodGetPrev.serverStreaming ≠ methodGetCurr.serverStreaming →
        methodFindings svcPrev.name methodGetPrev methodGetCurr
          = [Finding.methodServerStreamingChanged methodGetPrev.name
              methodGetPrev.serverStreaming methodGetCurr.serverStreaming svcPrev.name]) :=
  ⟨by decide, by decide, by decide, by decide, by decide, by decide,
    (claim_C7 fileSvcPrev fileSvcCurr svcPrev svcCurr methodGetPrev methodGetCurr
      (by decide) (by decide) (by decide) (by decide)).2.2.2.1,
    (claim_C7 fileSvcPrev fileSvcCurr svcPrev svcCurr methodGetPrev methodGetCurr
      (by decide) (by decide) (by decide) (by decide)).2.2.2.2⟩

/-- Counterexample to claim C2: `compareMessages` ranges over a Go map
(src/main.go line 320), whose iteration order the Go runtime does not
fix, so two runs on the same inputs may order their findings
differently.  With previous messages `A` and `B` and an empty current
file, the iteration order `[B, A]` is a valid (permuted) order of the
map entries, yet it yields the findings in the opposite order of the
canonical order `[A, B]`. -/
theorem claim_C2_counterexample :
    (List.Perm
      [(("B" : String), MessageDescriptor.mk "B" [] [] []),
        ("A", MessageDescriptor.mk "A" [] [] [])]
      (goEntries (msgInsertions fileAB)))
    ∧ compareMessagesWith
        [(("B" : String), MessageDescriptor.mk "B" [] [] []),
          ("A", MessageDescriptor.mk "A" [] [] [])] fileEmpty
      ≠ compareMessagesWith (goEntries (msgInsertions fileAB)) fileEmpty := by
  constructor
  · have he : goEntries (msgInsertions fileAB)
        = [("A", MessageDescriptor.mk "A" [] [] []),
            ("B", MessageDescriptor.mk "B" [] [] [])] := rfl
    rw [he]
    exact List.Perm.swap _ _ _
  · decide

/-- Claim C2 as amended: the comparison is deterministic up to the
reordering induced by Go-map iteration: for any two iteration orders of
the previous file's message and enum maps (permutations of the map
entries), the two runs produce the same findings as a multiset — the
same elements, possibly in different order; the field and service
comparators and every per-entry finding list are fully deterministic
functions of the inputs. -/
theorem claim_C2_amended (prev curr : FileDescriptor)
    (mo1 mo2 : List (String × MessageDescriptor))
    (eo1 eo2 : List (String × EnumDescriptor))
    (hm1 : mo1.Perm (goEntries (msgInsertions prev)))
    (hm2 : mo2.Perm (goEntries (msgInsertions prev)))
    (he1 : eo1.Perm (goEntries (enumInsertions prev)))
    (he2 : eo2.Perm (goEntries (enumInsertions prev))) :
    (compareProtoFileWith mo1 eo1 prev curr).Perm
      (compareProtoFileWith mo2 eo2 prev curr) := by
  have pm : (compareMessagesWith mo1 curr).Perm (compareMessagesWith mo2 curr) :=
    (hm1.trans hm2.symm).flatMap_right _
  have pe : (compareEnumsWith eo1 curr).Perm (compareEnumsWith eo2 curr) :=
    (he1.trans he2.symm).flatMap_right _
  exact (pm.append pe).append (List.Perm.refl _)

/-- Witness for the amended C2: the swapped message iteration order
produces a permutation of the canonical run's findings. -/
theorem claim_C2_amended_witness :
    (List.Perm
      [(("B" : String), MessageDescriptor.mk "B" [] [] []),
        ("A", MessageDescriptor.mk "A" [] [] [])]
      (goEntries (msgInsertions fileAB)))
    ∧ (compareProtoFileWith (goEntries (msgInsertions fileAB))
          (goEntries (enumInsertions fileAB)) fileAB fileEmpty).Perm
        (compareProtoFileWith
          [(("B" : String), MessageDescriptor.mk "B" [] [] []),
            ("A", MessageDescriptor.mk "A" [] [] [])]
          (goEntries (enumInsertions fileAB)) fileAB fileEmpty) := by
  have hperm : List.Perm
      [(("B" : String), MessageDescriptor.mk "B" [] [] []),
        ("A", MessageDescriptor.mk "A" [] [] [])]
      (goEntries (msgInsertions fileAB)) := by
    have he : goEntries (msgInsertions fileAB)
        = [("A", MessageDescriptor.mk "A" [] [] []),
            ("B", MessageDescriptor.mk "B" [] [] [])] := rfl
    rw [he]
    exact List.Perm.swap _ _ _
  exact ⟨hperm,
    claim_C2_amended fileAB fileEmpty _ _ _ _ (List.Perm.refl _) hperm
      (List.Perm.refl _) (List.Perm.refl _)⟩

/-- Claim C6: when the only difference between the two trees is that one
(nested) message, keyed by its dotted qualified path `q`, is present in
the previous flattened message map and absent from the current one —
every other entry still matching a current message with the same fields
— the message comparison yields exactly one finding, the removal of `q`,
under every possible map-iteration order; in particular there is no
finding for the (unchanged) outer message. -/
theorem claim_C6 (prev curr : FileDescriptor) (q : String) (m : MessageDescriptor)
    (o : List (String × MessageDescriptor))
    (hwf : ∀ e ∈ goEntries (msgInsertions prev), ((e.2.fields.map Field.number)).Nodup)
    (hq1 : goLookup (msgInsertions prev) q = some m)
    (hq2 : goLookup (msgInsertions curr) q = none)
    (hrest : ∀ e ∈ goEntries (msgInsertions prev), e.1 ≠ q →
      (goLookup (msgInsertions curr) e.1).map MessageDescriptor.fields
        = some e.2.fields)
    (ho : o.Perm (goEntries (msgInsertions prev))) :
    compareMessagesWith o curr = [Finding.messageRemoved q] := by
  have hchunks : ∀ e ∈ o, msgEntryFindings (msgInsertions curr) e
      = if e.1 = q then [Finding.messageRemoved q] else [] := by
    intro e he
    have heE : e ∈ goEntries (msgInsertions prev) := (ho.mem_iff).1 he
    by_cases hq : e.1 = q
    · rw [if_pos hq, msgEntryFindings, hq, hq2]
    · rw [if_neg hq]
      have hcf := hrest e heE hq
      cases hcm : goLookup (msgInsertions curr) e.1 with
      | none => rw [hcm] at hcf; simp at hcf
      | some cm =>
        rw [hcm] at hcf
        simp only [Option.map_some', Option.some.injEq] at hcf
        rw [msgEntryFindings, hcm]
        exact compareFields_self hcf.symm (hwf e heE)
  have hkey : ((goEntries (msgInsertions prev)).map Prod.fst).count q = 1 := by
    apply List.count_eq_one_of_mem (goEntries_nodup_keys _)
    exact List.mem_map.2 ⟨(q, m), mem_goEntries.2 hq1, rfl⟩
  have hco : (o.map Prod.fst).count q = 1 := by
    rw [(ho.map Prod.fst).count_eq]
    exact hkey
  rw [compareMessagesWith]
  exact flatMap_eq_single Prod.fst q (Finding.messageRemoved q)
    (msgEntryFindings (msgInsertions curr)) o hco hchunks

/-- Witness for C6: removing only `Outer.Inner` (with `Outer` otherwise
unchanged) yields exactly the one finding for `Outer.Inner`. -/
theorem claim_C6_witness :
    (∀ e ∈ goEntries (msgInsertions fileOuterInner),
      ((e.2.fields.map Field.number)).Nodup)
    ∧ goLookup (msgInsertions fileOuterInner) "Outer.Inner"
        = some (MessageDescriptor.mk "Inner" [] [] [])
    ∧ goLookup (msgInsertions fileOuterOnly) "Outer.Inner" = none
    ∧ (∀ e ∈ goEntries (msgInsertions fileOuterInner), e.1 ≠ "Outer.Inner" →
        (goLookup (msgInsertions fileOuterOnly) e.1).map MessageDescriptor.fields
          = some e.2.fields)
    ∧ compareMessagesWith (goEntries (msgInsertions fileOuterInner)) fileOuterOnly
        = [Finding.messageRemoved "Outer.Inner"] :=
  ⟨by decide, rfl, rfl, by decide,
    claim_C6 fileOuterInner fileOuterOnly "Outer.Inner" (MessageDescriptor.mk "Inner" [] [] [])
      (goEntries (msgInsertions fileOuterInner)) (by decide) rfl rfl (by decide)
      (List.Perm.refl _)⟩

end ProtoBreak
